import Mathlib

/-!
# Verification of the `bborbe/collection` set family and slice helpers

Shallow embedding of the Go library `github.com/bborbe/collection`.

* `Set[T comparable]` (`collection_set.go`) is backed by `map[T]struct{}`.
  A Go map with `struct{}` values is modelled by its key list, kept free of
  duplicates by the operations themselves (a map cannot hold a key twice):
  insertion is a no-op on a present key, deletion removes the key.
* `SetEqual[T HasEqual[T]]` is backed by a plain slice `[]T` scanned with the
  user-supplied `Equal` predicate; the slice is modelled as a `List T` and the
  `Equal` method as a function parameter `eq : T → T → Bool`.
* `SetHashCode[T HasHashCode]` is backed by `map[string]T` keyed by the
  user-supplied `HashCode() string`; modelled as an association list
  `List (String × T)` with unique keys, where insertion on a present key
  replaces the value in place (Go map assignment) and otherwise appends.
* Slice helpers (`Intersect`, `Find`, `UnPtr`, text parsing) are pure and are
  translated directly.

Go iteration order over a map is unspecified; no theorem below depends on the
order of the modelled key lists except where the source itself guarantees an
order (the slice-backed `SetEqual`).
-/

namespace Collection

/-! ## Go map primitives (key-list model of `map[T]struct{}`) -/

/-- `data[element] = struct{}{}` on a `map[T]struct{}`: no-op when the key is
already present, otherwise the key set grows by that key. -/
def mapInsertKey {T : Type} [DecidableEq T] (data : List T) (x : T) : List T :=
  if x ∈ data then data else data ++ [x]

/-- `delete(data, element)` on a `map[T]struct{}`: the key is removed.
On reachable states the key list has no duplicates, so filtering equals
removing the single entry. -/
def mapDeleteKey {T : Type} [DecidableEq T] (data : List T) (x : T) : List T :=
  data.filter (fun y => decide (y ≠ x))

/-! ## `set[T comparable]` (collection_set.go) -/

/-- `set.Add(elements ...T)`: inserts each element in order. -/
def setAdd {T : Type} [DecidableEq T] (data : List T) (elements : List T) : List T :=
  elements.foldl mapInsertKey data

/-- `set.Remove(elements ...T)`: deletes each element in order. -/
def setRemove {T : Type} [DecidableEq T] (data : List T) (elements : List T) : List T :=
  elements.foldl mapDeleteKey data

/-- `set.Contains(element T) bool`: map lookup. -/
def setContains {T : Type} [DecidableEq T] (data : List T) (element : T) : Bool :=
  decide (element ∈ data)

/-- `set.ContainsAll(elements ...T) bool`: loops and returns `false` at the
first absent element, `true` after the loop (so vacuously `true` on `[]`). -/
def setContainsAll {T : Type} [DecidableEq T] (data : List T) : List T → Bool
  | [] => true
  | e :: rest => if e ∈ data then setContainsAll data rest else false

/-- `set.ContainsAny(elements ...T) bool`: loops and returns `true` at the
first present element, `false` after the loop (so `false` on `[]`). -/
def setContainsAny {T : Type} [DecidableEq T] (data : List T) : List T → Bool
  | [] => false
  | e :: rest => if e ∈ data then true else setContainsAny data rest

/-- `set.Length() int`: `len(s.data)`. -/
def setLength {T : Type} (data : List T) : Nat :=
  data.length

/-- `NewSet[T comparable](elements ...T)`: empty map, then `Add(elements...)`. -/
def NewSet {T : Type} [DecidableEq T] (elements : List T) : List T :=
  setAdd [] elements

/-! ## Basic lemmas about the native set -/

theorem mem_mapInsertKey {T : Type} [DecidableEq T] (data : List T) (x y : T) :
    y ∈ mapInsertKey data x ↔ y ∈ data ∨ y = x := by
  unfold mapInsertKey
  by_cases h : x ∈ data
  · simp only [if_pos h]
    constructor
    · exact fun hy => Or.inl hy
    · rintro (hy | rfl)
      · exact hy
      · exact h
  · simp [if_neg h]

theorem nodup_mapInsertKey {T : Type} [DecidableEq T] (data : List T) (x : T)
    (h : data.Nodup) : (mapInsertKey data x).Nodup := by
  unfold mapInsertKey
  by_cases hx : x ∈ data
  · simpa [if_pos hx]
  · simp only [if_neg hx]
    simpa [List.nodup_append] using ⟨h, fun hmem => hx hmem⟩

theorem mem_setAdd {T : Type} [DecidableEq T] (data elements : List T) (y : T) :
    y ∈ setAdd data elements ↔ y ∈ data ∨ y ∈ elements := by
  induction elements generalizing data with
  | nil => simp [setAdd]
  | cons e rest ih =>
    show y ∈ setAdd (mapInsertKey data e) rest ↔ _
    rw [ih, mem_mapInsertKey]
    simp [or_assoc]

theorem nodup_setAdd {T : Type} [DecidableEq T] (data elements : List T)
    (h : data.Nodup) : (setAdd data elements).Nodup := by
  induction elements generalizing data with
  | nil => exact h
  | cons e rest ih => exact ih _ (nodup_mapInsertKey data e h)

theorem toFinset_setAdd_nil {T : Type} [DecidableEq T] (elements : List T) :
    (setAdd [] elements).toFinset = elements.toFinset := by
  ext y
  simp [List.mem_toFinset, mem_setAdd]

/-- `Length` of a freshly built native set counts the distinct elements. -/
theorem setAdd_nil_length {T : Type} [DecidableEq T] (elements : List T) :
    (setAdd [] elements).length = elements.dedup.length := by
  have hnodup : (setAdd [] elements).Nodup := nodup_setAdd [] elements List.nodup_nil
  have h1 : (setAdd [] elements).toFinset.card = (setAdd [] elements).length :=
    List.toFinset_card_of_nodup hnodup
  have h2 : (setAdd [] elements).toFinset = elements.toFinset :=
    toFinset_setAdd_nil elements
  have h3 : elements.toFinset.card = elements.dedup.length := List.card_toFinset elements
  rw [← h1, h2, h3]

/-! ## `setEqual[T HasEqual[T]]` (latest version in collection_intersect_test.go)

The user-supplied method `Equal(value T) bool` is the parameter
`eq : T → T → Bool`; a stored element `e` matches a query `x` when
`eq e x = true` (receiver first, exactly as `e.Equal(element)` in the source).
The backing slice `s.data` is the `List T`, in insertion order. -/

/-- `setEqual.contains(element T) bool`: linear scan with `e.Equal(element)`. -/
def setEqualContains {T : Type} (eq : T → T → Bool) (data : List T) (element : T) : Bool :=
  data.any (fun e => eq e element)

/-- `setEqual.Add(elements ...T)`: appends each element unless an equal one is
already stored. -/
def setEqualAdd {T : Type} (eq : T → T → Bool) (data : List T) (elements : List T) : List T :=
  elements.foldl (fun d x => if setEqualContains eq d x then d else d ++ [x]) data

/-- `setEqual.Remove(elements ...T)`: rebuilds the slice, dropping every stored
element that `Equal`-matches one of the arguments. -/
def setEqualRemove {T : Type} (eq : T → T → Bool) (data : List T) (elements : List T) : List T :=
  data.filter (fun e => !(elements.any (fun x => eq e x)))

/-- `setEqual.ContainsAll(elements ...T) bool`: `false` at the first absent
element, `true` after the loop. -/
def setEqualContainsAll {T : Type} (eq : T → T → Bool) (data : List T) : List T → Bool
  | [] => true
  | e :: rest => if setEqualContains eq data e then setEqualContainsAll eq data rest else false

/-- `setEqual.ContainsAny(elements ...T) bool`: `true` at the first present
element, `false` after the loop. -/
def setEqualContainsAny {T : Type} (eq : T → T → Bool) (data : List T) : List T → Bool
  | [] => false
  | e :: rest => if setEqualContains eq data e then true else setEqualContainsAny eq data rest

/-- `setEqual.Slice() []T`: `Copy(s.data)` — a fresh slice with the same
elements in the same (insertion) order. -/
def setEqualSlice {T : Type} (data : List T) : List T :=
  data

/-- `setEqual.Length() int`. -/
def setEqualLength {T : Type} (data : List T) : Nat :=
  data.length

/-- `NewSetEqual[T HasEqual[T]](elements ...T)`: empty slice, then `Add`. -/
def NewSetEqual {T : Type} (eq : T → T → Bool) (elements : List T) : List T :=
  setEqualAdd eq [] elements

/-- `setEqual.MarshalJSON()` calls `json.Marshal(s.data)`, which serializes the
slice elements in slice order; the element sequence presented by the JSON
encoding is therefore `s.data` itself. -/
def setEqualMarshalJSONElems {T : Type} (data : List T) : List T :=
  data

/-! ### String rendering (elementToString / formatSetString / sort.Strings)

`elementToString` dispatches dynamically (fmt.Stringer, string, or `%v`); the
embedding takes the resulting per-element rendering as a parameter
`toStr : T → String` (the identity for `T = string`). `sort.Strings` sorts
lexicographically by byte; Go strings here are modelled as Lean strings
compared by code point, which coincides on ASCII data. -/

/-- Lexicographic comparison of character lists by code point, mirroring Go's
byte-wise `<=` on (ASCII) strings. -/
def charListLe : List Char → List Char → Bool
  | [], _ => true
  | _ :: _, [] => false
  | a :: as, b :: bs =>
    if a.val < b.val then true
    else if b.val < a.val then false
    else charListLe as bs

/-- `a <= b` for Go strings. -/
def goStrLe (a b : String) : Bool :=
  charListLe a.data b.data

/-- Insert into an already sorted list (helper for `sortStrings`). -/
def sortInsert (x : String) : List String → List String
  | [] => [x]
  | y :: ys => if goStrLe x y then x :: y :: ys else y :: sortInsert x ys

/-- `sort.Strings`: the sorted rearrangement of the list. Go uses an in-place
quicksort; only the resulting order is observable, and insertion sort yields
the same result. -/
def sortStrings : List String → List String
  | [] => []
  | x :: xs => sortInsert x (sortStrings xs)

/-- `setEqual.Strings() []string`: renders each stored element and sorts the
renderings (`sort.Strings(result)`). -/
def setEqualStrings {T : Type} (toStr : T → String) (data : List T) : List String :=
  sortStrings (data.map toStr)

/-- `formatSetString(prefix, elements)` (collection helper): `prefix ++ "]"`
when empty, otherwise the comma-space-joined elements between `prefix`
and `"]"`. -/
def formatSetString (pre : String) (elements : List String) : String :=
  if elements.length = 0 then pre ++ "]"
  else pre ++ String.intercalate ", " elements ++ "]"

/-- `setEqual.String()`: `formatSetString("SetEqual[", s.Strings())`. -/
def setEqualString {T : Type} (toStr : T → String) (data : List T) : String :=
  formatSetString "SetEqual[" (setEqualStrings toStr data)

/-! ## `setHashCode[T HasHashCode]` (latest version in src/unnamed/part_007)

The user-supplied method `HashCode() string` is the parameter
`hash : T → String`. The backing `map[string]T` is an association list with
unique keys: assignment to a present key replaces the value, otherwise the
entry is appended. -/

/-- `s.data[element.HashCode()] = element` on a `map[string]T`. -/
def hashMapInsert {T : Type} (data : List (String × T)) (k : String) (v : T) :
    List (String × T) :=
  if k ∈ data.map Prod.fst then
    data.map (fun p => if p.1 = k then (k, v) else p)
  else data ++ [(k, v)]

/-- `setHashCode.Add(elements ...T)`: assigns each element under its hash code. -/
def setHashCodeAdd {T : Type} (hash : T → String) (data : List (String × T))
    (elements : List T) : List (String × T) :=
  elements.foldl (fun d x => hashMapInsert d (hash x) x) data

/-- `setHashCode.Remove(element T)`: `delete(s.data, element.HashCode())`. -/
def setHashCodeRemove {T : Type} (hash : T → String) (data : List (String × T))
    (element : T) : List (String × T) :=
  data.filter (fun p => decide (p.1 ≠ hash element))

/-- `setHashCode.Contains(element T) bool`: lookup of the hash code. -/
def setHashCodeContains {T : Type} (hash : T → String) (data : List (String × T))
    (element : T) : Bool :=
  data.any (fun p => p.1 == hash element)

/-- `setHashCode.Slice() []T`: the stored values (map iteration order is
unspecified in Go; the model lists them in key-insertion order). -/
def setHashCodeSlice {T : Type} (data : List (String × T)) : List T :=
  data.map Prod.snd

/-- `setHashCode.Length() int`: `len(s.data)`. -/
def setHashCodeLength {T : Type} (data : List (String × T)) : Nat :=
  data.length

/-- `NewSetHashCode[T HasHashCode](elements ...T)`: empty map, then `Add`. -/
def NewSetHashCode {T : Type} (hash : T → String) (elements : List T) :
    List (String × T) :=
  setHashCodeAdd hash [] elements

/-! ## Pure slice helpers -/

/-- `Intersect[T comparable](a, b []T) []T` (collection_intersect.go): early
return on an empty input; otherwise one pass over `a`, keeping elements that
occur in `b` (`mapB` lookup) and have not been kept before (`seen` lookup).
`mapB` and `seen` are sets of keys; `seen` is carried as the list of kept
elements (an element enters `seen` exactly when it enters `result`). -/
def Intersect {T : Type} [DecidableEq T] (a b : List T) : List T :=
  if a.length = 0 ∨ b.length = 0 then []
  else
    (a.foldl
      (fun (acc : List T × List T) aa =>
        if aa ∈ b then
          if aa ∈ acc.1 then acc
          else (acc.1 ++ [aa], acc.2 ++ [aa])
        else acc)
      ([], [])).2

/-- Go error values relevant to this library: the sentinel `ErrNotFound`
(`errors.New("not found")` in collection_find.go) and arbitrary other
errors carried as messages. -/
inductive GoError where
  | errNotFound : GoError
  | errMsg : String → GoError
deriving DecidableEq

/-- `Find[T any](list []T, match func(T) bool) (*T, error)`
(collection_find.go): returns a pointer (modelled as `Option T`) to the first
matching element with a `nil` error, or `nil` with `ErrNotFound` after the
loop. -/
def Find {T : Type} : List T → (T → Bool) → Option T × Option GoError
  | [], _ => (none, some GoError.errNotFound)
  | e :: rest, p => if p e then (some e, none) else Find rest p

/-- `UnPtr[T any](ptr *T) T` (collection_unptr.go): `var t T` yields the zero
value of `T` (passed here explicitly as `zero`); a non-nil pointer is
dereferenced, a nil pointer leaves the zero value. -/
def UnPtr {T : Type} (zero : T) (ptr : Option T) : T :=
  match ptr with
  | none => zero
  | some v => v

/-! ## Text decoding of string-keyed sets (collection_set.go) -/

/-- `strings.FieldsFunc(value, r == ',')`: the maximal substrings between
commas, with empty substrings omitted. -/
def goFieldsComma (value : String) : List String :=
  (value.splitOn ",").filter (fun t => decide (t ≠ ""))

/-- `strings.TrimSpace(part)`: removes leading and trailing whitespace
characters. (Go trims per `unicode.IsSpace`; the model uses `Char.isWhitespace`,
which agrees on the ASCII whitespace the library's inputs use.) -/
def goTrimSpace (s : String) : String :=
  ⟨((s.data.dropWhile Char.isWhitespace).reverse.dropWhile Char.isWhitespace).reverse⟩

/-- `ParseSetFromString[T ~string](value string) Set[T]`: splits on commas,
keeps each token's `TrimSpace` when non-empty, and builds a new set from the
tokens. -/
def ParseSetFromString (value : String) : List String :=
  NewSet ((goFieldsComma value).foldl
    (fun acc part =>
      if goTrimSpace part = "" then acc else acc ++ [goTrimSpace part]) [])

/-- `set.UnmarshalText(text []byte) error` for a string-keyed set: splits on
commas, replaces `s.data` with a fresh empty map, then inserts each token's
trim when non-empty. Never fails, so the `error` result is omitted. The
previous state `s` is taken as an argument to record that it is discarded. -/
def setUnmarshalText (s : List String) (text : String) : List String :=
  (goFieldsComma text).foldl
    (fun d part =>
      if goTrimSpace part = "" then d else mapInsertKey d (goTrimSpace part)) []

/-! ## Channel draining (ChannelFnCount) -/

/-- Modelled from the spec: the implementation of `ChannelFnCount`
(`drainToCount`) is not under src/ — only its tests
(collection_channel-fn-count_test.go) and its README signature are. A drain
session is abstracted by the finite list of items the producer emits plus the
producer's optional terminal error (a context cancellation surfaces as such an
error, per the spec's cancellation rule). Per the spec, the consumer counts
the received items; on success the count is returned with no error, and on
failure the sentinel `-1` is returned together with the producer's error
wrapped under the operation-identifying prefix "count channel failed". -/
def ChannelFnCount {T : Type} (items : List T) (producerErr : Option String) :
    Int × Option String :=
  match producerErr with
  | none => ((items.length : Int), none)
  | some e => (-1, some ("count channel failed: " ++ e))

/-! ## Spec-side definitions (for refinement statements)

These follow the spec's words, to be compared with the source translations
above; they are deliberately phrased independently of the implementations. -/

/-- First-occurrence filter: keeps an element exactly when no *earlier element
of the input sequence* (not merely an earlier kept one) is `eq`-equivalent to
it. `seen` accumulates the full prefix. -/
def firstOccurAux {T : Type} (eq : T → T → Bool) : List T → List T → List T
  | _, [] => []
  | seen, x :: rest =>
    if seen.any (fun y => eq y x) then firstOccurAux eq (seen ++ [x]) rest
    else x :: firstOccurAux eq (seen ++ [x]) rest

/-- The input sequence with duplicates (under `eq`) collapsed to their first
occurrence, in input order. -/
def firstOccur {T : Type} (eq : T → T → Bool) (xs : List T) : List T :=
  firstOccurAux eq [] xs

/-- Number of distinct elements of a sequence under `eq`: the length of its
first-occurrence dedup. -/
def distinctCount {T : Type} (eq : T → T → Bool) (xs : List T) : Nat :=
  (firstOccur eq xs).length

/-- First-occurrence dedup under native equality, with the already-seen
prefix accumulated in `seen`. -/
def dedupFOAux {T : Type} [DecidableEq T] : List T → List T → List T
  | _, [] => []
  | seen, x :: rest =>
    if x ∈ seen then dedupFOAux seen rest
    else x :: dedupFOAux (seen ++ [x]) rest

/-- First-occurrence dedup under native equality. -/
def dedupFO {T : Type} [DecidableEq T] (xs : List T) : List T :=
  dedupFOAux [] xs

/-- The spec's description of text decoding: split the input on commas, trim
surrounding whitespace from every token, and drop the tokens that are empty
after trimming. -/
def specTokens (text : String) : List String :=
  ((text.splitOn ",").map goTrimSpace).filter (fun t => decide (t ≠ ""))

/-! ## Invariant lemmas for `setEqual` -/

/-- Core invariant of `setEqual.Add`: when `eq` is transitive, checking a new
element against the *kept* elements (what the code does) agrees with checking
it against the *entire prefix already processed* (what the spec describes), so
the resulting slice is the first-occurrence dedup of the input. `data` and
`seen` are linked by: a query matches some kept element iff it matches some
prefix element. -/
theorem setEqualAdd_append_firstOccurAux {T : Type} (eq : T → T → Bool)
    (htrans : ∀ a b c, eq a b = true → eq b c = true → eq a c = true) :
    ∀ (xs data seen : List T),
      (∀ z, data.any (fun e => eq e z) = seen.any (fun y => eq y z)) →
      setEqualAdd eq data xs = data ++ firstOccurAux eq seen xs := by
  intro xs
  induction xs with
  | nil =>
    intro data seen _
    simp [setEqualAdd, firstOccurAux]
  | cons x r ih =>
    intro data seen hinv
    by_cases h : seen.any (fun y => eq y x) = true
    · have hc : setEqualContains eq data x = true := by
        rw [show setEqualContains eq data x = _ from hinv x, h]
      have lhs : setEqualAdd eq data (x :: r) = setEqualAdd eq data r := by
        simp only [setEqualAdd, List.foldl_cons, hc, if_true]
      have rhs : firstOccurAux eq seen (x :: r) = firstOccurAux eq (seen ++ [x]) r := by
        simp [firstOccurAux, h]
      rw [lhs, rhs]
      apply ih
      intro z
      rw [hinv z]
      simp only [List.any_append, List.any_cons, List.any_nil, Bool.or_false]
      by_cases hxz : eq x z = true
      · obtain ⟨y, hy, hyx⟩ := List.any_eq_true.mp h
        have hyz : eq y z = true := htrans y x z hyx hxz
        have hs : seen.any (fun y => eq y z) = true := List.any_eq_true.mpr ⟨y, hy, hyz⟩
        rw [hs, hxz]
        rfl
      · have hxz' : eq x z = false := by
          revert hxz; cases eq x z <;> simp
        rw [hxz']
        simp
    · have hc : setEqualContains eq data x = false := by
        have := hinv x
        revert h
        rw [show setEqualContains eq data x = _ from this]
        cases seen.any (fun y => eq y x) <;> simp
      have lhs : setEqualAdd eq data (x :: r) = setEqualAdd eq (data ++ [x]) r := by
        simp only [setEqualAdd, List.foldl_cons, hc, if_false, Bool.false_eq_true]
      have rhs : firstOccurAux eq seen (x :: r) = x :: firstOccurAux eq (seen ++ [x]) r := by
        simp [firstOccurAux, h]
      rw [lhs, rhs]
      have step := ih (data ++ [x]) (seen ++ [x]) (by
        intro z
        simp only [List.any_append, List.any_cons, List.any_nil, Bool.or_false]
        rw [hinv z])
      rw [step, List.append_assoc]
      rfl

/-- Building a `setEqual` from scratch yields the first-occurrence dedup of
the added sequence (transitive `eq`). -/
theorem setEqualAdd_nil_eq_firstOccur {T : Type} (eq : T → T → Bool)
    (htrans : ∀ a b c, eq a b = true → eq b c = true → eq a c = true)
    (xs : List T) :
    setEqualAdd eq [] xs = firstOccur eq xs := by
  have h := setEqualAdd_append_firstOccurAux eq htrans xs [] []
    (by intro z; rfl)
  simpa [firstOccur] using h

/-! ## Key lemmas for `setHashCode` -/

/-- The key set of the hash-code map evolves exactly like a native set over
the hash codes: replacing a value keeps the key set, a new key is appended. -/
theorem hashMapInsert_keys {T : Type} (data : List (String × T)) (k : String) (v : T) :
    (hashMapInsert data k v).map Prod.fst = mapInsertKey (data.map Prod.fst) k := by
  unfold hashMapInsert mapInsertKey
  by_cases h : k ∈ data.map Prod.fst
  · rw [if_pos h, if_pos h, List.map_map]
    apply List.map_congr_left
    intro p _
    by_cases hp : p.1 = k
    · simp [hp]
    · simp [hp]
  · rw [if_neg h, if_neg h]
    simp

/-- `setHashCode.Add` over the key sets is native-set `Add` over the hashes. -/
theorem setHashCodeAdd_keys {T : Type} (hash : T → String) :
    ∀ (elements : List T) (data : List (String × T)),
      (setHashCodeAdd hash data elements).map Prod.fst =
        setAdd (data.map Prod.fst) (elements.map hash) := by
  intro elements
  induction elements with
  | nil => intro data; rfl
  | cons x r ih =>
    intro data
    show (setHashCodeAdd hash (hashMapInsert data (hash x) x) r).map Prod.fst = _
    rw [ih (hashMapInsert data (hash x) x), hashMapInsert_keys]
    rfl

/-! ## Claim theorems -/

/-- Claim C5: for every set (of any contents, including empty), `ContainsAll`
with an empty argument list returns `true` and `ContainsAny` with an empty
argument list returns `false`; with non-empty arguments, `ContainsAll` is true
iff every given element is present and `ContainsAny` is true iff at least one
given element is present. Stated for the native `set` and for `setEqual`
(both expose the methods). -/
theorem c5_contains_all_any {T : Type} [DecidableEq T] (eq : T → T → Bool) :
    ∀ (data es : List T),
      setContainsAll data [] = true ∧
      setContainsAny data [] = false ∧
      (setContainsAll data es = true ↔ ∀ e ∈ es, setContains data e = true) ∧
      (setContainsAny data es = true ↔ ∃ e ∈ es, setContains data e = true) ∧
      setEqualContainsAll eq data [] = true ∧
      setEqualContainsAny eq data [] = false ∧
      (setEqualContainsAll eq data es = true ↔
        ∀ e ∈ es, setEqualContains eq data e = true) ∧
      (setEqualContainsAny eq data es = true ↔
        ∃ e ∈ es, setEqualContains eq data e = true) := by
  intro data es
  refine ⟨rfl, rfl, ?_, ?_, rfl, rfl, ?_, ?_⟩
  · induction es with
    | nil => simp [setContainsAll]
    | cons e rest ih =>
      by_cases h : e ∈ data
      · simp [setContainsAll, h, ih, setContains]
      · simp [setContainsAll, h, setContains]
  · induction es with
    | nil => simp [setContainsAny]
    | cons e rest ih =>
      by_cases h : e ∈ data
      · simp [setContainsAny, h, setContains]
      · simp [setContainsAny, h, ih, setContains]
  · induction es with
    | nil => simp [setEqualContainsAll]
    | cons e rest ih =>
      by_cases h : setEqualContains eq data e = true
      · simp [setEqualContainsAll, h, ih]
      · have h' : setEqualContains eq data e = false := by
          revert h; cases setEqualContains eq data e <;> simp
        simp [setEqualContainsAll, h']
  · induction es with
    | nil => simp [setEqualContainsAny]
    | cons e rest ih =>
      by_cases h : setEqualContains eq data e = true
      · simp [setEqualContainsAny, h]
      · have h' : setEqualContains eq data e = false := by
          revert h; cases setEqualContains eq data e <;> simp
        simp [setEqualContainsAny, h', ih]

/-- Claim C7: `ChannelFnCount` (drain-to-count) returns `(0, nil)` when the
producer emits zero items and no error; when the producer returns an error it
returns the sentinel `-1` (not `0`) with a wrapped error, so successful
zero-item counting is distinguishable from failure. -/
theorem c7_channel_fn_count {T : Type} :
    ∀ (items : List T) (e : String),
      ChannelFnCount ([] : List T) none = ((0 : Int), none) ∧
      (ChannelFnCount items (some e)).1 = -1 ∧
      (ChannelFnCount items (some e)).2 = some ("count channel failed: " ++ e) ∧
      (ChannelFnCount items (some e)).2 ≠ none ∧
      (-1 : Int) ≠ 0 := by
  intro items e
  refine ⟨rfl, rfl, rfl, by simp [ChannelFnCount], by decide⟩

/-- Claim C9: `Find` returns (a pointer to) the first element satisfying the
predicate with a nil error when one exists (`List.find?` is exactly
first-match), and nil plus the distinguished sentinel `ErrNotFound` — not a
generic failure — when no element satisfies it, including on the empty slice. -/
theorem c9_find {T : Type} :
    ∀ (list : List T) (p : T → Bool),
      Find list p =
        ((list.find? p), (list.find? p).elim (some GoError.errNotFound) (fun _ => none)) ∧
      Find ([] : List T) p = (none, some GoError.errNotFound) ∧
      (∀ m : String, GoError.errNotFound ≠ GoError.errMsg m) := by
  intro list p
  refine ⟨?_, rfl, fun m h => GoError.noConfusion h⟩
  induction list with
  | nil => rfl
  | cons e rest ih =>
    by_cases h : p e = true
    · simp [Find, h, List.find?, Option.elim]
    · have h' : p e = false := by revert h; cases p e <;> simp
      simp [Find, h', List.find?, ih]

/-- Claim C10: `UnPtr` is total on all pointer inputs — `nil` yields the zero
value of the element type without dereferencing, a non-nil pointer yields the
pointed-to value. -/
theorem c10_unptr {T : Type} :
    ∀ (zero v : T),
      UnPtr zero none = zero ∧
      UnPtr zero (some v) = v ∧
      (∀ ptr : Option T, UnPtr zero ptr = zero ∨ ∃ w, ptr = some w ∧ UnPtr zero ptr = w) := by
  intro zero v
  refine ⟨rfl, rfl, ?_⟩
  intro ptr
  cases ptr with
  | none => exact Or.inl rfl
  | some w => exact Or.inr ⟨w, rfl, rfl⟩

/-- Claim C1: for every finite sequence of elements added (via constructor or
`Add`, in any batching) to a `Set`, `SetEqual`, or `SetHashCode`, `Length()`
returns the number of distinct elements of the sequence under the variant's
identity strategy: native equality for `Set` (`dedup.length`), the user
`Equal` predicate for `SetEqual` (here required to be transitive, as an
identity strategy must be; `distinctCount` counts first occurrences over the
whole sequence), and the `HashCode` string for `SetHashCode` (distinct hash
codes). The batch-composition conjuncts show the count is the same whether
elements arrive through the constructor or through later `Add` calls. -/
theorem c1_length_distinct {T : Type} [DecidableEq T] (hash : T → String)
    (eq : T → T → Bool)
    (htrans : ∀ a b c, eq a b = true → eq b c = true → eq a c = true) :
    ∀ xs ys : List T,
      setLength (NewSet xs) = xs.dedup.length ∧
      setAdd (NewSet xs) ys = NewSet (xs ++ ys) ∧
      setEqualLength (NewSetEqual eq xs) = distinctCount eq xs ∧
      setEqualAdd eq (NewSetEqual eq xs) ys = NewSetEqual eq (xs ++ ys) ∧
      setHashCodeLength (NewSetHashCode hash xs) = (xs.map hash).dedup.length ∧
      setHashCodeAdd hash (NewSetHashCode hash xs) ys = NewSetHashCode hash (xs ++ ys) := by
  intro xs ys
  refine ⟨?_, ?_, ?_, ?_, ?_, ?_⟩
  · exact setAdd_nil_length xs
  · simp [NewSet, setAdd, List.foldl_append]
  · show (setEqualAdd eq [] xs).length = distinctCount eq xs
    rw [setEqualAdd_nil_eq_firstOccur eq htrans xs]
    rfl
  · simp [NewSetEqual, setEqualAdd, List.foldl_append]
  · show (setHashCodeAdd hash [] xs).length = (xs.map hash).dedup.length
    have hk := setHashCodeAdd_keys hash xs []
    have hlen : (setHashCodeAdd hash [] xs).length
        = ((setHashCodeAdd hash [] xs).map Prod.fst).length := by
      rw [List.length_map]
    rw [hlen, hk]
    show (setAdd [] (xs.map hash)).length = _
    exact setAdd_nil_length (xs.map hash)
  · simp [NewSetHashCode, setHashCodeAdd, List.foldl_append]

/-- Claim C1 witness: concrete run with `T = Nat`, decidable-equality `eq`,
`hash = toString`, sequence `[1, 2, 1, 3]` (three distinct elements). -/
theorem c1_length_distinct_witness :
    (∀ a b c : Nat,
        (decide (a = b)) = true → (decide (b = c)) = true → (decide (a = c)) = true) ∧
    (setLength (NewSet [1, 2, 1, 3]) = ([1, 2, 1, 3] : List Nat).dedup.length ∧
      setAdd (NewSet [1, 2, 1, 3]) [2, 4] = NewSet ([1, 2, 1, 3] ++ [2, 4]) ∧
      setEqualLength (NewSetEqual (fun a b : Nat => decide (a = b)) [1, 2, 1, 3])
        = distinctCount (fun a b : Nat => decide (a = b)) [1, 2, 1, 3] ∧
      setEqualAdd (fun a b : Nat => decide (a = b))
          (NewSetEqual (fun a b : Nat => decide (a = b)) [1, 2, 1, 3]) [2, 4]
        = NewSetEqual (fun a b : Nat => decide (a = b)) ([1, 2, 1, 3] ++ [2, 4]) ∧
      setHashCodeLength (NewSetHashCode (fun n : Nat => toString n) [1, 2, 1, 3])
        = (([1, 2, 1, 3] : List Nat).map (fun n : Nat => toString n)).dedup.length ∧
      setHashCodeAdd (fun n : Nat => toString n)
          (NewSetHashCode (fun n : Nat => toString n) [1, 2, 1, 3]) [2, 4]
        = NewSetHashCode (fun n : Nat => toString n) ([1, 2, 1, 3] ++ [2, 4])) :=
  ⟨fun a b c h1 h2 => by
      rw [decide_eq_true_eq] at h1 h2 ⊢
      exact h1.trans h2,
    c1_length_distinct (fun n : Nat => toString n) (fun a b : Nat => decide (a = b))
      (fun a b c h1 h2 => by
        rw [decide_eq_true_eq] at h1 h2 ⊢
        exact h1.trans h2)
      [1, 2, 1, 3] [2, 4]⟩

/-- Claim C2: adding two elements that are distinct by full value equality but
share a `HashCode` string to an empty `SetHashCode` yields `Length() = 1`, the
stored element is the second-added one (last-write-wins), the collision is
still reported as contained, and `Add` is total (no error or panic is
modelled because the Go method can raise none). -/
theorem c2_hashcode_collision {T : Type} (hash : T → String) (a b : T)
    (hne : a ≠ b) (hcol : hash a = hash b) :
    setHashCodeLength (setHashCodeAdd hash [] [a, b]) = 1 ∧
    setHashCodeSlice (setHashCodeAdd hash [] [a, b]) = [b] ∧
    setHashCodeContains hash (setHashCodeAdd hash [] [a, b]) b = true := by
  have hstate : setHashCodeAdd hash [] [a, b] = [(hash b, b)] := by
    show hashMapInsert (hashMapInsert [] (hash a) a) (hash b) b = [(hash b, b)]
    rw [show hashMapInsert ([] : List (String × T)) (hash a) a = [(hash a, a)] from by
      simp [hashMapInsert]]
    simp [hashMapInsert, hcol]
  refine ⟨?_, ?_, ?_⟩
  · rw [hstate]; rfl
  · rw [hstate]; rfl
  · rw [hstate]; simp [setHashCodeContains]

/-- Claim C2 witness: `T = Nat × Nat` hashed on the first component;
`(1, 2)` and `(1, 3)` are distinct values with the same hash code. -/
theorem c2_hashcode_collision_witness :
    ((1, 2) : Nat × Nat) ≠ (1, 3) ∧
    (fun p : Nat × Nat => toString p.1) (1, 2) = (fun p : Nat × Nat => toString p.1) (1, 3) ∧
    (setHashCodeLength
        (setHashCodeAdd (fun p : Nat × Nat => toString p.1) [] [(1, 2), (1, 3)]) = 1 ∧
      setHashCodeSlice
        (setHashCodeAdd (fun p : Nat × Nat => toString p.1) [] [(1, 2), (1, 3)])
        = [(1, 3)] ∧
      setHashCodeContains (fun p : Nat × Nat => toString p.1)
        (setHashCodeAdd (fun p : Nat × Nat => toString p.1) [] [(1, 2), (1, 3)])
        (1, 3) = true) :=
  ⟨by decide, rfl,
    c2_hashcode_collision (fun p : Nat × Nat => toString p.1) (1, 2) (1, 3)
      (by decide) rfl⟩

/-- Claim C3 counterexample: the claim quantifies over *every* set state,
but when the element is already present the `Add` is a no-op and the `Remove`
deletes it, so the set does not return to its pre-`Add` state. Concretely, on
the native set `{1}` an `Add(1)` then `Remove(1)` changes `Length()` from 1
to 0 and flips `Contains(1)`. -/
theorem c3_counterexample :
    setLength (setRemove (setAdd (NewSet [(1 : Nat)]) [1]) [1])
        ≠ setLength (NewSet [(1 : Nat)]) ∧
    setContains (setRemove (setAdd (NewSet [(1 : Nat)]) [1]) [1]) 1
        ≠ setContains (NewSet [(1 : Nat)]) 1 := by
  decide

/-- Claim C3 (amended): `Add(x)` followed by `Remove(x)` returns the set to
its exact pre-`Add` state (hence equal `Length()` and unchanged `Contains`
for every element) *provided `x` is not already present under the active
identity strategy* (for `setEqual` with `eq` reflexive at `x`, so the removal
matches the element just added). Stated for all three variants. -/
theorem c3_add_remove_roundtrip {T : Type} [DecidableEq T] (hash : T → String)
    (eq : T → T → Bool) (data : List T) (hdata : List (String × T)) (x : T)
    (h1 : setContains data x = false)
    (h2 : setEqualContains eq data x = false) (hrefl : eq x x = true)
    (h3 : setHashCodeContains hash hdata x = false) :
    setRemove (setAdd data [x]) [x] = data ∧
    setEqualRemove eq (setEqualAdd eq data [x]) [x] = data ∧
    setHashCodeRemove hash (setHashCodeAdd hash hdata [x]) x = hdata := by
  have hx : x ∉ data := by
    intro hmem
    have : setContains data x = true := by simp [setContains, hmem]
    rw [h1] at this
    exact Bool.noConfusion this
  refine ⟨?_, ?_, ?_⟩
  · show setRemove (mapInsertKey data x) [x] = data
    rw [show mapInsertKey data x = data ++ [x] from by simp [mapInsertKey, hx]]
    show mapDeleteKey (data ++ [x]) x = data
    unfold mapDeleteKey
    rw [List.filter_append]
    rw [List.filter_eq_self.mpr (fun y hy => by
      simp only [decide_eq_true_eq]
      intro hyx
      exact hx (hyx ▸ hy))]
    simp
  · have hadd : setEqualAdd eq data [x] = data ++ [x] := by
      simp [setEqualAdd, h2]
    rw [hadd]
    show (data ++ [x]).filter (fun e => !([x].any (fun y => eq e y))) = data
    rw [List.filter_append]
    have hdatakeep : data.filter (fun e => !([x].any (fun y => eq e y))) = data := by
      apply List.filter_eq_self.mpr
      intro e he
      have : eq e x = false := by
        by_contra hcontra
        have hex : eq e x = true := by
          revert hcontra; cases eq e x <;> simp
        have : setEqualContains eq data x = true :=
          List.any_eq_true.mpr ⟨e, he, hex⟩
        rw [h2] at this
        exact Bool.noConfusion this
      simp [this]
    have hxdrop : ([x] : List T).filter (fun e => !([x].any (fun y => eq e y))) = [] := by
      simp [hrefl]
    rw [hdatakeep, hxdrop, List.append_nil]
  · have hkey : hash x ∉ hdata.map Prod.fst := by
      intro hmem
      obtain ⟨p, hp, hpk⟩ := List.mem_map.mp hmem
      have : setHashCodeContains hash hdata x = true :=
        List.any_eq_true.mpr ⟨p, hp, by simp [hpk]⟩
      rw [h3] at this
      exact Bool.noConfusion this
    have hadd : setHashCodeAdd hash hdata [x] = hdata ++ [(hash x, x)] := by
      show hashMapInsert hdata (hash x) x = _
      simp [hashMapInsert, hkey]
    rw [hadd]
    unfold setHashCodeRemove
    rw [List.filter_append]
    have hkeep : hdata.filter (fun p => decide (p.1 ≠ hash x)) = hdata := by
      apply List.filter_eq_self.mpr
      intro p hp
      simp only [decide_eq_true_eq]
      intro hpk
      exact hkey (List.mem_map.mpr ⟨p, hp, hpk⟩)
    rw [hkeep]
    simp

/-- Claim C3 witness: native set `{2, 3}` and element `1`, absent under all
three identity strategies (`hash = toString`, decidable equality as `eq`). -/
theorem c3_add_remove_roundtrip_witness :
    setContains [2, 3] (1 : Nat) = false ∧
    setEqualContains (fun a b : Nat => decide (a = b)) [2, 3] 1 = false ∧
    (fun a b : Nat => decide (a = b)) 1 1 = true ∧
    setHashCodeContains (fun n : Nat => toString n) [("2", 2), ("3", 3)] 1 = false ∧
    (setRemove (setAdd [2, 3] [(1 : Nat)]) [1] = [2, 3] ∧
      setEqualRemove (fun a b : Nat => decide (a = b))
        (setEqualAdd (fun a b : Nat => decide (a = b)) [2, 3] [1]) [1] = [2, 3] ∧
      setHashCodeRemove (fun n : Nat => toString n)
        (setHashCodeAdd (fun n : Nat => toString n) [("2", 2), ("3", 3)] [1]) 1
        = [("2", 2), ("3", 3)]) :=
  ⟨by decide, by decide, by decide, by decide,
    c3_add_remove_roundtrip (fun n : Nat => toString n) (fun a b : Nat => decide (a = b))
      [2, 3] [("2", 2), ("3", 3)] 1 (by decide) (by decide) (by decide) (by decide)⟩

/-- Claim C4 counterexample: `SetEqual.String()` does NOT present elements in
insertion order — the source sorts the rendered elements
(`sort.Strings` inside `Strings()`, and `String()` formats `Strings()`).
Adding `"b"` then `"a"` (with string equality as the `Equal` predicate and the
identity rendering, which is `elementToString` on strings) leaves the slice in
insertion order `["b", "a"]` but prints `"SetEqual[a, b]"`, not the
insertion-order formatting. -/
theorem c4_counterexample :
    setEqualSlice (NewSetEqual (fun a b : String => a == b) ["b", "a"]) = ["b", "a"] ∧
    setEqualString (fun s => s) (NewSetEqual (fun a b : String => a == b) ["b", "a"])
        = "SetEqual[a, b]" ∧
    setEqualString (fun s => s) (NewSetEqual (fun a b : String => a == b) ["b", "a"])
        ≠ formatSetString "SetEqual["
            ((setEqualSlice (NewSetEqual (fun a b : String => a == b) ["b", "a"])).map
              (fun s => s)) := by
  refine ⟨by decide, by decide, by decide⟩

/-- Claim C4 (amended): for `SetEqual`, after any sequence of `Add`
operations, `Slice()` and `MarshalJSON()` present the elements in insertion
order (first-occurrence order over the whole added sequence, duplicates
collapsed to their first occurrence; `eq` transitive), while `Strings()` and
`String()` present the elements sorted by their string representation, not in
insertion order. -/
theorem c4_setequal_order {T : Type} (eq : T → T → Bool) (toStr : T → String)
    (htrans : ∀ a b c, eq a b = true → eq b c = true → eq a c = true) :
    ∀ xs : List T,
      setEqualSlice (NewSetEqual eq xs) = firstOccur eq xs ∧
      setEqualMarshalJSONElems (NewSetEqual eq xs) = firstOccur eq xs ∧
      setEqualStrings toStr (NewSetEqual eq xs)
        = sortStrings ((firstOccur eq xs).map toStr) ∧
      setEqualString toStr (NewSetEqual eq xs)
        = formatSetString "SetEqual[" (sortStrings ((firstOccur eq xs).map toStr)) := by
  intro xs
  have h : NewSetEqual eq xs = firstOccur eq xs :=
    setEqualAdd_nil_eq_firstOccur eq htrans xs
  refine ⟨?_, ?_, ?_, ?_⟩
  · rw [show setEqualSlice (NewSetEqual eq xs) = NewSetEqual eq xs from rfl, h]
  · rw [show setEqualMarshalJSONElems (NewSetEqual eq xs) = NewSetEqual eq xs from rfl, h]
  · rw [show setEqualStrings toStr (NewSetEqual eq xs)
        = sortStrings ((NewSetEqual eq xs).map toStr) from rfl, h]
  · rw [show setEqualString toStr (NewSetEqual eq xs)
        = formatSetString "SetEqual[" (setEqualStrings toStr (NewSetEqual eq xs)) from rfl]
    rw [show setEqualStrings toStr (NewSetEqual eq xs)
        = sortStrings ((NewSetEqual eq xs).map toStr) from rfl, h]

/-- Claim C4 witness: string elements `["b", "a", "b"]` under string equality
and the identity rendering. -/
theorem c4_setequal_order_witness :
    (∀ a b c : String, (a == b) = true → (b == c) = true → (a == c) = true) ∧
    (setEqualSlice (NewSetEqual (fun a b : String => a == b) ["b", "a", "b"])
        = firstOccur (fun a b : String => a == b) ["b", "a", "b"] ∧
      setEqualMarshalJSONElems (NewSetEqual (fun a b : String => a == b) ["b", "a", "b"])
        = firstOccur (fun a b : String => a == b) ["b", "a", "b"] ∧
      setEqualStrings (fun s => s) (NewSetEqual (fun a b : String => a == b) ["b", "a", "b"])
        = sortStrings ((firstOccur (fun a b : String => a == b) ["b", "a", "b"]).map
            (fun s => s)) ∧
      setEqualString (fun s => s) (NewSetEqual (fun a b : String => a == b) ["b", "a", "b"])
        = formatSetString "SetEqual["
            (sortStrings ((firstOccur (fun a b : String => a == b) ["b", "a", "b"]).map
              (fun s => s)))) :=
  ⟨fun a b c h1 h2 => by
      rw [beq_iff_eq] at h1 h2 ⊢
      exact h1.trans h2,
    c4_setequal_order (fun a b : String => a == b) (fun s => s)
      (fun a b c h1 h2 => by
        rw [beq_iff_eq] at h1 h2 ⊢
        exact h1.trans h2)
      ["b", "a", "b"]⟩

/-! ## Lemmas for text decoding (C6) -/

/-- The token-insertion loop of `UnmarshalText` equals adding the trimmed,
non-empty tokens to the given map. -/
theorem foldl_trim_insert (parts : List String) :
    ∀ d : List String,
      parts.foldl
          (fun d part =>
            if goTrimSpace part = "" then d else mapInsertKey d (goTrimSpace part)) d
        = setAdd d ((parts.map goTrimSpace).filter (fun t => decide (t ≠ ""))) := by
  induction parts with
  | nil => intro d; rfl
  | cons p r ih =>
    intro d
    by_cases h : goTrimSpace p = ""
    · simp only [List.foldl_cons, List.map_cons, List.filter_cons, if_pos h]
      rw [show (decide (goTrimSpace p ≠ "")) = false from by simpa using h]
      simp only [Bool.false_eq_true, if_false]
      exact ih d
    · simp only [List.foldl_cons, List.map_cons, List.filter_cons, if_neg h]
      rw [show (decide (goTrimSpace p ≠ "")) = true from by simpa using h]
      simp only [if_true]
      show _ = setAdd (mapInsertKey d (goTrimSpace p)) _
      exact ih (mapInsertKey d (goTrimSpace p))

/-- The trimmed-token accumulation loop of `ParseSetFromString` equals
appending the trimmed, non-empty tokens. -/
theorem foldl_trim_append (parts : List String) :
    ∀ acc : List String,
      parts.foldl
          (fun acc part =>
            if goTrimSpace part = "" then acc else acc ++ [goTrimSpace part]) acc
        = acc ++ (parts.map goTrimSpace).filter (fun t => decide (t ≠ "")) := by
  induction parts with
  | nil => intro acc; simp
  | cons p r ih =>
    intro acc
    by_cases h : goTrimSpace p = ""
    · simp only [List.foldl_cons, List.map_cons, List.filter_cons, if_pos h]
      rw [show (decide (goTrimSpace p ≠ "")) = false from by simpa using h]
      simp only [Bool.false_eq_true, if_false]
      exact ih acc
    · simp only [List.foldl_cons, List.map_cons, List.filter_cons, if_neg h]
      rw [show (decide (goTrimSpace p ≠ "")) = true from by simpa using h]
      simp only [if_true]
      rw [ih (acc ++ [goTrimSpace p]), List.append_assoc]
      rfl

/-- The empty token trims to the empty string. -/
theorem goTrimSpace_empty : goTrimSpace "" = "" := by
  decide

/-- Dropping the empty raw tokens first (as `strings.FieldsFunc` does) makes
no difference once tokens are trimmed and empty trims are dropped, because the
empty token trims to the empty string. -/
theorem filter_map_trim_filter (l : List String) :
    ((l.filter (fun t => decide (t ≠ ""))).map goTrimSpace).filter
        (fun t => decide (t ≠ ""))
      = (l.map goTrimSpace).filter (fun t => decide (t ≠ "")) := by
  induction l with
  | nil => rfl
  | cons t r ih =>
    by_cases h : t = ""
    · subst h
      simp only [List.filter_cons, List.map_cons, goTrimSpace_empty]
      rw [show (decide (("" : String) ≠ "")) = false from by decide]
      simpa using ih
    · simp only [List.filter_cons, List.map_cons]
      rw [show (decide (t ≠ "")) = true from by simpa using h]
      simp only [if_true, List.map_cons, List.filter_cons]
      rw [ih]

/-- Claim C6: for every input string, text decoding into a string-keyed `Set`
(`UnmarshalText`, and likewise `ParseSetFromString`) splits on commas, trims
surrounding whitespace from each token, drops tokens that are empty after
trimming (so stray commas are tolerated), and replaces the set's entire
previous contents (the result does not depend on the prior state `s`). -/
theorem c6_unmarshal_text :
    ∀ (s : List String) (text : String),
      setUnmarshalText s text = NewSet (specTokens text) ∧
      ParseSetFromString text = NewSet (specTokens text) := by
  intro s text
  constructor
  · show (goFieldsComma text).foldl
        (fun d part =>
          if goTrimSpace part = "" then d else mapInsertKey d (goTrimSpace part)) []
      = NewSet (specTokens text)
    rw [foldl_trim_insert (goFieldsComma text) []]
    show setAdd [] _ = setAdd [] _
    rw [show goFieldsComma text = (text.splitOn ",").filter (fun t => decide (t ≠ ""))
      from rfl]
    rw [filter_map_trim_filter (text.splitOn ",")]
    rfl
  · show NewSet ((goFieldsComma text).foldl
        (fun acc part =>
          if goTrimSpace part = "" then acc else acc ++ [goTrimSpace part]) [])
      = NewSet (specTokens text)
    rw [foldl_trim_append (goFieldsComma text) []]
    rw [List.nil_append]
    rw [show goFieldsComma text = (text.splitOn ",").filter (fun t => decide (t ≠ ""))
      from rfl]
    rw [filter_map_trim_filter (text.splitOn ",")]
    rfl

/-! ## Lemmas for `Intersect` (C8) -/

/-- The `Intersect` loop: `seen` and `result` always coincide, and the result
extends the accumulator with the first-occurrence dedup of the elements of `a`
that occur in `b`. -/
theorem intersect_foldl (b : List String) :
    ∀ (a acc : List String),
      (a.foldl
          (fun (st : List String × List String) aa =>
            if aa ∈ b then
              if aa ∈ st.1 then st
              else (st.1 ++ [aa], st.2 ++ [aa])
            else st)
          (acc, acc)).2
        = acc ++ dedupFOAux acc (a.filter (fun x => decide (x ∈ b))) := by
  intro a
  induction a with
  | nil => intro acc; simp [dedupFOAux]
  | cons aa r ih =>
    intro acc
    by_cases hb : aa ∈ b
    · by_cases hseen : aa ∈ acc
      · simp only [List.foldl_cons, if_pos hb, if_pos hseen, List.filter_cons]
        rw [show (decide (aa ∈ b)) = true from by simpa using hb]
        simp only [dedupFOAux, if_pos hseen]
        exact ih acc
      · simp only [List.foldl_cons, if_pos hb, if_neg hseen, List.filter_cons]
        rw [show (decide (aa ∈ b)) = true from by simpa using hb]
        simp only [dedupFOAux, if_neg hseen]
        rw [ih (acc ++ [aa]), List.append_assoc]
        rfl
    · simp only [List.foldl_cons, if_neg hb, List.filter_cons]
      rw [show (decide (aa ∈ b)) = false from by simpa using hb]
      exact ih acc

/-- Claim C8: `Intersect(a, b)` returns the common elements of the two slices
in the order of their first occurrence in the first argument, with duplicates
collapsed; in particular `Intersect([c,a,b], [a,b,c]) = [c,a,b]` and
`Intersect([a,a,b,b], [a,a,c]) = [a]`. Stated over `String` slices, matching
the cited tests. -/
theorem c8_intersect :
    ∀ a b : List String,
      Intersect a b = dedupFO (a.filter (fun x => decide (x ∈ b))) ∧
      Intersect ["c", "a", "b"] ["a", "b", "c"] = ["c", "a", "b"] ∧
      Intersect ["a", "a", "b", "b"] ["a", "a", "c"] = ["a"] := by
  intro a b
  refine ⟨?_, by decide, by decide⟩
  by_cases ha : a.length = 0
  · rw [show a = [] from List.length_eq_zero.mp ha]
    simp [Intersect, dedupFO, dedupFOAux]
  · by_cases hb : b.length = 0
    · rw [show b = [] from List.length_eq_zero.mp hb]
      have hfilter : a.filter (fun x => decide (x ∈ ([] : List String))) = [] := by
        simp
      rw [show Intersect a ([] : List String) = [] from by
        unfold Intersect
        exact if_pos (Or.inr rfl)]
      rw [hfilter]
      rfl
    · unfold Intersect
      rw [if_neg (by push_neg; exact ⟨ha, hb⟩)]
      rw [intersect_foldl b a []]
      rfl

end Collection
